import Mathlib

/-!
# Emoji-Cipher: verification of the cipher core

Shallow embedding of the cipher core of `src/App.tsx`:
`mulberry32`, `seededShuffle`, `buildMapping`, `reverseMap`, and the
encode/decode handlers.  JavaScript strings are modelled as `String` /
`List Char` (a JS string spread `[...s]` iterates Unicode code points,
matching Lean's `Char`); JS plain objects used as dictionaries are
modelled as association lists with JS-object insertion semantics
(inserting an existing key overwrites its value in place, a fresh key is
appended; `for (const k in o)` iterates keys in insertion order).
32-bit integer arithmetic (`Math.imul`, `>>>`, `|`, `^`, ToInt32) is
modelled on `Nat` with explicit `% 2^32`: all JS bitwise operators act on
the 32-bit pattern, which agrees with the unsigned residue mod `2^32`.

The constants file (`constants.ts`, exporting `emojiPool` and `chars`) is
not part of the sources; every definition is therefore parameterised by
`emojiPool : List String` and `chars : List Char`.
-/

/-- The constant `2^32`, the normalisation divisor `4294967296` in `mulberry32`. -/
def U32 : Nat := 4294967296

/-- One draw of the `mulberry32` generator (src/App.tsx, `mulberry32`):
given the current state `a`, returns the numerator `u` of the produced
float `u / 2^32` together with the advanced state.  The JS body
`t = a += 0x6D2B79F5; t = Math.imul(t ^ t >>> 15, t | 1);
t ^= t + Math.imul(t ^ t >>> 7, t | 61); return ((t ^ t >>> 14) >>> 0) / 4294967296`
is transcribed literally, with every ToInt32 coercion made explicit as
`% U32` (the JS float addition `t + Math.imul …` of two 32-bit values is
exact, so reducing the sum mod `2^32` is bit-faithful). -/
def mulberry32Step (a : Nat) : Nat × Nat :=
  let a' := (a + 0x6D2B79F5) % U32
  let t1 := a'
  let t2 := ((t1 ^^^ (t1 >>> 15)) * (t1 ||| 1)) % U32
  let t3 := t2 ^^^ ((t2 + ((t2 ^^^ (t2 >>> 7)) * (t2 ||| 61)) % U32) % U32)
  (t3 ^^^ (t3 >>> 14), a')

/-- Model of `Math.floor(r * m)` for a draw `r = u / 2^32`: the numerator product
`u * m` stays below `2^53` for every array this app shuffles, so the JS
float multiplication and `Math.floor` compute exactly `⌊u·m / 2^32⌋`,
i.e. `Nat` division. -/
def jsFloorMul (u m : Nat) : Nat := u * m / U32

/-- The three-statement swap `const t = a[m]; a[m] = a[i]; a[i] = t` of
`seededShuffle`, as a pure list operation (both indices are in bounds at
every call site; out of bounds we return the list unchanged). -/
def listSwap {α : Type} (l : List α) (i j : Nat) : List α :=
  match l[i]?, l[j]? with
  | some x, some y => (l.set i y).set j x
  | _, _ => l

/-- The `while (m)` loop of `seededShuffle` (src/App.tsx):
`const i = Math.floor(random() * m--); swap a[m] a[i]`.  The draw is
multiplied by the pre-decrement value of `m`, then `m` is decremented and
positions `m` (new value) and `i` are swapped.  The loop is parameterised
by the `random` closure (`const random = mulberry32(seed)` in the
source), with its hidden 32-bit state threaded explicitly. -/
def shuffleLoop (random : Nat → Nat × Nat) (a : List String) (m : Nat) (state : Nat) :
    List String :=
  match m with
  | 0 => a
  | m' + 1 =>
    let p := random state
    let i := jsFloorMul p.1 (m' + 1)
    shuffleLoop random (listSwap a m' i) m' p.2

/-- Function `seededShuffle` (src/App.tsx): copies the array (`[...arr]`, hence the
input is never mutated — the embedding is a pure function of the input
list) and runs the swap loop from `m = arr.length` down, drawing from
`mulberry32` seeded with `seed`. -/
def seededShuffle (arr : List String) (seed : Nat) : List String :=
  shuffleLoop mulberry32Step arr arr.length seed

/-- JS plain-object assignment `o[k] = v`: overwrite in place when the key
exists, append otherwise (JS objects keep string keys in insertion
order). -/
def jsInsert {α β : Type} [DecidableEq α] : List (α × β) → α → β → List (α × β)
  | [], k, v => [(k, v)]
  | (k', v') :: t, k, v =>
    if k' = k then (k, v) :: t else (k', v') :: jsInsert t k v

/-- JS plain-object read `o[k]`: `none` models `undefined`. -/
def jsLookup {α β : Type} [DecidableEq α] : List (α × β) → α → Option β
  | [], _ => none
  | (k', v) :: t, k => if k' = k then some v else jsLookup t k

/-- The key list of a JS-object model, in insertion order (the order the
keys were first created). -/
def keysOf {α β : Type} (l : List (α × β)) : List α := l.map Prod.fst

/-- The ten ASCII digit characters: among single-character property keys,
exactly these are array-index keys in JS (canonical numeric strings below
`2^32 − 1`); non-ASCII digits are not, since their `ToString ∘ ToUint32`
round trip fails. -/
def digitChars : List Char := ['0', '1', '2', '3', '4', '5', '6', '7', '8', '9']

/-- The key order of `for (const k in o)` over an object with
single-character keys: ECMAScript's `OrdinaryOwnPropertyKeys` enumerates
integer-like keys first, in ascending numeric order, and only then the
remaining string keys in creation (insertion) order. -/
def jsForInKeys (m : List (Char × String)) : List Char :=
  digitChars.filter (fun d => decide (d ∈ keysOf m)) ++
  (keysOf m).filter (fun c => decide (c ∉ digitChars))

/-- The `for (let i = 0; i < chars.length; i++) map[chars[i]] = pool[i % pool.length]`
loop of `buildMapping`, with the running index made explicit.  `pool.getD`
with default `""` models the (unreached for a nonempty pool) JS read
`pool[j]` being `undefined`. -/
def buildLoop (pool : List String) : List Char → Nat → List (Char × String) → List (Char × String)
  | [], _, m => m
  | c :: cs, i, m => buildLoop pool cs (i + 1) (jsInsert m c (pool.getD (i % pool.length) ""))

/-- Function `buildMapping` (src/App.tsx): shuffles the pool with the hard-coded
seed `12345` and zips the alphabet against it with index wraparound.
`emojiPool` and `chars` are the constants from the missing
`constants.ts`, taken as parameters. -/
def buildMapping (emojiPool : List String) (chars : List Char) : List (Char × String) :=
  let pool := seededShuffle emojiPool 12345
  buildLoop pool chars 0 []

/-- Variant of `buildMapping` with the seed abstracted, used to state that the source
pins the seed to the constant `12345`. -/
def buildMappingSeed (seed : Nat) (emojiPool : List String) (chars : List Char) :
    List (Char × String) :=
  buildLoop (seededShuffle emojiPool seed) chars 0 []

/-- Function `reverseMap` (src/App.tsx): `for (const k in map) rev[map[k]] = k`,
iterating the forward map's keys in JS for-in order — digit-character
keys first in ascending numeric order, then the remaining keys in
insertion order — reading each key's value and writing the inverse entry;
a later write to a shared emoji overwrites the earlier one. -/
def reverseMap (m : List (Char × String)) : List (String × Char) :=
  (jsForInKeys m).foldl
    (fun rev k =>
      match jsLookup m k with
      | some v => jsInsert rev v k
      | none => rev) []

/-- The forward map's entries in for-in enumeration order: each enumerated
key paired with the value `map[k]` that `reverseMap` reads for it. -/
def forInEntries (m : List (Char × String)) : List (Char × String) :=
  (jsForInKeys m).filterMap (fun k => (jsLookup m k).map (fun v => (k, v)))

/-- The character class of the JS regex `\s` (and of `String.prototype.trim`):
ASCII whitespace, NBSP, the Unicode space separators, line/paragraph
separators and the BOM. -/
def jsWhiteChars : List Char :=
  [' ', '\t', '\n', '\r', '\x0b', '\x0c', ' ', ' ', ' ',
   ' ', ' ', ' ', ' ', ' ', ' ', ' ',
   ' ', ' ', ' ', ' ', ' ', ' ', ' ',
   '　', '﻿']

/-- Whether a character is JS whitespace. -/
def jsWhite (c : Char) : Bool := jsWhiteChars.contains c

/-- Model of `String.prototype.trim`: strip JS whitespace from both ends. -/
def jsTrimL (l : List Char) : List Char :=
  ((l.dropWhile jsWhite).reverse.dropWhile jsWhite).reverse

/-- Worker for `split(/\s+/)`: accumulate the current token (reversed in
`cur`); on a whitespace character emit the token and skip the rest of the
maximal whitespace run. -/
def splitWsAux : List Char → List Char → List (List Char)
  | [], cur => [cur.reverse]
  | c :: t, cur =>
    if jsWhite c then cur.reverse :: splitWsAux (t.dropWhile jsWhite) []
    else splitWsAux t (c :: cur)
  termination_by l _ => l.length
  decreasing_by
  · have h := (List.dropWhile_sublist (l := t) jsWhite).length_le
    simp only [List.length_cons]
    omega
  · simp only [List.length_cons]
    omega

/-- Model of the split on maximal runs of JS whitespace.  As in JS,
`""` yields `[""]`, and a leading/trailing whitespace run contributes an
empty token at that end. -/
def jsSplitWs (l : List Char) : List (List Char) := splitWsAux l []

/-- Model of the join with a single space on the token lists produced by encoding. -/
def joinSep : List (List Char) → List Char
  | [] => []
  | [x] => x
  | x :: y :: xs => x ++ ' ' :: joinSep (y :: xs)

/-- One character's token in `handleEncode`: `mapping[char] || '❓'`.  The
JS `||` falls through to the placeholder both when the key is absent
(`undefined`) and when the stored emoji is the (falsy) empty string. -/
def encodeChar (m : List (Char × String)) (c : Char) : List Char :=
  match jsLookup m c with
  | some e => if e.data = [] then ['❓'] else e.data
  | none => ['❓']

/-- Body of `handleEncode` on the character list of a nonempty input:
lower-case (JS `toLowerCase`, modelled per code point by `Char.toLower`),
map each code point through the forward mapping with placeholder `'❓'`,
and `join(' ')`. -/
def encodeL (m : List (Char × String)) (t : List Char) : List Char :=
  joinSep ((t.map Char.toLower).map (encodeChar m))

/-- Function `handleEncode` (src/App.tsx): the `if (!plainText)` guard maps the
empty string to the empty string; otherwise encode the code points. -/
def handleEncode (m : List (Char × String)) (t : String) : String :=
  if t = "" then "" else String.mk (encodeL m t.data)

/-- The property names a plain JS object inherits from `Object.prototype`
(all non-enumerable but readable through the prototype chain, and all
bound to truthy function or object values). -/
def protoKeys : List String :=
  ["constructor", "hasOwnProperty", "isPrototypeOf", "propertyIsEnumerable",
   "toLocaleString", "toString", "valueOf", "__proto__",
   "__defineGetter__", "__defineSetter__", "__lookupGetter__", "__lookupSetter__"]

/-- Modelled from the host environment, for the decode path on tokens that
hit `Object.prototype`: the text that `Array.prototype.join`'s `ToString`
produces for the inherited value.  The accessor `__proto__` yields
`Object.prototype` itself (stringified `[object Object]`); `constructor`
is the `Object` function; every other inherited property is a native
method named by its key, stringified to a `NativeFunction` source text.
The exact native source text is host-defined; the one property the
corrected claim relies on is that every such value is truthy and its
text is never the single character `?`. -/
def jsProtoRender (name : String) : List Char :=
  if name = "__proto__" then ("[object Object]").data
  else if name = "constructor" then
    ("function Object() \x7b [native code] \x7d").data
  else ("function " ++ name ++ "() \x7b [native code] \x7d").data

/-- Result of the JS property read `reversedMapping[token]` on the decode
path: an own data property (an alphabet character written by
`reverseMap`), an inherited `Object.prototype` property, or `undefined`. -/
inductive JsPropValue where
  | ownChar (c : Char)
  | inherited (name : String)
  | undef

/-- The read `reversedMapping[token]`: an own key shadows the prototype;
otherwise the prototype chain supplies the inherited `Object.prototype`
property; only when neither exists is the result `undefined`. -/
def jsReadProp (rev : List (String × Char)) (tok : String) : JsPropValue :=
  match jsLookup rev tok with
  | some c => JsPropValue.ownChar c
  | none =>
    if protoKeys.contains tok then JsPropValue.inherited tok else JsPropValue.undef

/-- One token's decoding in `handleDecode`: `reversedMapping[token] || '?'`.
An own value is a single alphabet character (truthy); an inherited
`Object.prototype` value is truthy too, so `||` does not replace it and
`join('')` stringifies it; only `undefined` falls through to `'?'`. -/
def decodeTok (rev : List (String × Char)) (tok : List Char) : List Char :=
  match jsReadProp rev (String.mk tok) with
  | JsPropValue.ownChar c => [c]
  | JsPropValue.inherited name => jsProtoRender name
  | JsPropValue.undef => ['?']

/-- Body of `handleDecode` on a nonempty input:
`encodedText.trim().split(/\s+/)`, look every token up in the inverse
mapping with placeholder `'?'`, and concatenate (`join('')`). -/
def decodeL (rev : List (String × Char)) (s : List Char) : List Char :=
  ((jsSplitWs (jsTrimL s)).map (decodeTok rev)).flatten

/-- Function `handleDecode` (src/App.tsx): the `if (!encodedText)` guard maps the
empty string to the empty string; otherwise tokenize and decode. -/
def handleDecode (rev : List (String × Char)) (s : String) : String :=
  if s = "" then "" else String.mk (decodeL rev s.data)

/-- The token list `handleDecode` processes for a given input string. -/
def jsTokens (s : String) : List (List Char) :=
  if s = "" then [] else jsSplitWs (jsTrimL s.data)

/-- Modelled from the spec (§4.3), for the refinement claim about the
shuffle: "for index `m` from length−1 down to 1, draw a PRNG float,
compute `i = floor(random() * (m+1))`, swap elements at `m` and `i`". -/
def specFYLoop (random : Nat → Nat × Nat) (a : List String) (m : Nat) (state : Nat) :
    List String :=
  match m with
  | 0 => a
  | m' + 1 =>
    let p := random state
    let i := jsFloorMul p.1 (m' + 2)
    specFYLoop random (listSwap a (m' + 1) i) m' p.2

/-- Modelled from the spec (§4.3): the reference Fisher–Yates procedure,
starting at index `length − 1`, drawing from the same generator. -/
def specFisherYates (arr : List String) (seed : Nat) : List String :=
  specFYLoop mulberry32Step arr (arr.length - 1) seed

/-- A run of the generator: `MulberryRun s outs s'` holds when starting
from state `s`, some number of consecutive draws produce exactly the
numerators `outs` and leave the generator in state `s'`. -/
inductive MulberryRun : Nat → List Nat → Nat → Prop where
  | nil : ∀ s, MulberryRun s [] s
  | step : ∀ s r s' rs s'', mulberry32Step s = (r, s') →
      MulberryRun s' rs s'' → MulberryRun s (r :: rs) s''

/-- Replay of the shuffle's swap sequence against an explicit list of
draw numerators (one per loop iteration, in draw order). -/
def swapFold (a : List String) (m : Nat) (draws : List Nat) : List String :=
  match m, draws with
  | m' + 1, r :: rs => swapFold (listSwap a m' (jsFloorMul r (m' + 1))) m' rs
  | _, _ => a

/-- An execution of `seededShuffle arr seed` producing `out`: some run of
the generator supplies one draw per element and the swap sequence replayed
on those draws yields `out`. -/
def ShuffleRun (arr : List String) (seed : Nat) (out : List String) : Prop :=
  ∃ l t, MulberryRun seed l t ∧ l.length = arr.length ∧ out = swapFold arr arr.length l

/-- An execution of `buildMapping` producing the forward map `m`: some
execution of the shuffle with the hard-coded seed `12345` produced the
pool that the alphabet is zipped against. -/
def MappingRun (emojiPool : List String) (chars : List Char) (m : List (Char × String)) : Prop :=
  ∃ p, ShuffleRun emojiPool 12345 p ∧ m = buildLoop p chars 0 []

/-- The first `n` draws of a generator `f` from state `s`, with the final
state. -/
def mulberryDraws (f : Nat → Nat × Nat) (s : Nat) : Nat → List Nat × Nat
  | 0 => ([], s)
  | n + 1 =>
    let p := f s
    let q := mulberryDraws f p.2 n
    (p.1 :: q.1, q.2)

/-- The entry list `buildLoop` produces for a duplicate-free alphabet
suffix starting at index `i`: position `j` of the suffix is paired with
`pool[(i+j) % pool.length]`. -/
def mappingEntries (pool : List String) : List Char → Nat → List (Char × String)
  | [], _ => []
  | c :: cs, i => (c, pool.getD (i % pool.length) "") :: mappingEntries pool cs (i + 1)

/-- The key of the last entry of `l` whose value is `e`, mirroring the
last-writer-wins overwrite of `reverseMap`. -/
def lookupLast (l : List (Char × String)) (e : String) : Option Char :=
  match l with
  | [] => none
  | (k, v) :: t =>
    match lookupLast t e with
    | some k' => some k'
    | none => if v = e then some k else none

/-- Modelled from the spec (§4.5), for the encoder claim: emit the
forward-mapping entry of a character, or the placeholder `'❓'` when the
character is not in the alphabet. -/
def encodeClaimTok (m : List (Char × String)) (c : Char) : List Char :=
  match jsLookup m c with
  | some e => e.data
  | none => ['❓']

/-- The pool as shuffled by `buildMapping` (seed `12345`). -/
def shuffledPool (emojiPool : List String) : List String :=
  seededShuffle emojiPool 12345

/-- The pool entry assigned to alphabet index `j` by the mapping builder. -/
def poolEntryOf (pool : List String) (j : Nat) : String :=
  pool.getD (j % pool.length) ""


/-! ## Basic lemmas about the JS object model -/

theorem jsLookup_insert {α β : Type} [DecidableEq α] (l : List (α × β)) (k k' : α) (v : β) :
    jsLookup (jsInsert l k v) k' = if k = k' then some v else jsLookup l k' := by
  induction l with
  | nil => simp only [jsInsert, jsLookup]
  | cons p t ih =>
    obtain ⟨k₀, v₀⟩ := p
    by_cases h : k₀ = k
    · subst h
      simp only [jsInsert, if_pos rfl, jsLookup]
      by_cases h' : k₀ = k'
      · simp [h']
      · simp [h']
    · simp only [jsInsert, if_neg h, jsLookup, ih]
      by_cases h' : k₀ = k'
      · subst h'
        have hkk : ¬ k = k₀ := fun hh => h hh.symm
        simp [hkk]
      · simp [h']

theorem set_get_self {α : Type} (l : List α) (i : Nat) (h : i < l.length) :
    l.set i l[i] = l := by
  apply List.ext_getElem
  · simp
  · intro n h1 h2
    rw [List.getElem_set]
    split
    · subst n
      rfl
    · rfl

theorem listSwap_same {α : Type} (l : List α) (i : Nat) : listSwap l i i = l := by
  rw [listSwap]
  cases h : l[i]? with
  | none => simp
  | some x =>
    simp only [h]
    obtain ⟨hi, hx⟩ := List.getElem?_eq_some.mp h
    subst hx
    rw [List.set_set, set_get_self l i hi]

theorem listSwap_perm {α : Type} [DecidableEq α] (l : List α) (i j : Nat) :
    (listSwap l i j).Perm l := by
  by_cases hij : i = j
  · subst hij
    rw [listSwap_same]
  · rw [listSwap]
    cases hx : l[i]? with
    | none => exact List.Perm.refl l
    | some x =>
      cases hy : l[j]? with
      | none => exact List.Perm.refl l
      | some y =>
        obtain ⟨hi, hxe⟩ := List.getElem?_eq_some.mp hx
        obtain ⟨hj, hye⟩ := List.getElem?_eq_some.mp hy
        subst hxe
        subst hye
        rw [List.perm_iff_count]
        intro b
        have hj' : j < (l.set i l[j]).length := by simpa using hj
        rw [List.count_set _ _ _ _ hj', List.count_set _ _ _ _ hi]
        have hgj : (l.set i l[j])[j] = l[j] := by
          rw [List.getElem_set]
          simp [hij]
        rw [hgj]
        have e1 : (if (l[i] == b) = true then 1 else 0) = (if l[i] = b then 1 else 0) := by
          simp [beq_iff_eq]
        have e2 : (if (l[j] == b) = true then 1 else 0) = (if l[j] = b then 1 else 0) := by
          simp [beq_iff_eq]
        rw [e1, e2]
        by_cases hib : l[i] = b <;> by_cases hjb : l[j] = b
        · have hc : 0 < List.count b l :=
            List.count_pos_iff.mpr (hib ▸ List.getElem_mem hi)
          rw [if_pos hib, if_pos hjb]
          omega
        · have hc : 0 < List.count b l :=
            List.count_pos_iff.mpr (hib ▸ List.getElem_mem hi)
          rw [if_pos hib, if_neg hjb]
          omega
        · rw [if_neg hib, if_pos hjb]
          omega
        · rw [if_neg hib, if_neg hjb]
          omega

/-! ## Bounds for the generator -/

theorem U32_eq : U32 = 2 ^ 32 := by norm_num [U32]

theorem xor_shift_lt {x n k : Nat} (hx : x < 2 ^ n) : x ^^^ (x >>> k) < 2 ^ n := by
  refine Nat.xor_lt_two_pow hx ?_
  calc x >>> k ≤ x := by
        rw [Nat.shiftRight_eq_div_pow]
        exact Nat.div_le_self _ _
    _ < 2 ^ n := hx

theorem mulberry32Step_fst_lt (a : Nat) : (mulberry32Step a).1 < U32 := by
  have hU : (0:Nat) < U32 := by norm_num [U32]
  have h32 : ∀ x : Nat, x % U32 < 2 ^ 32 := by
    intro x
    rw [← U32_eq]
    exact Nat.mod_lt _ hU
  rw [U32_eq]
  simp only [mulberry32Step]
  exact xor_shift_lt (Nat.xor_lt_two_pow (h32 _) (h32 _))

theorem jsFloorMul_lt {u m : Nat} (hu : u < U32) (hm : 0 < m) : jsFloorMul u m < m := by
  rw [jsFloorMul]
  rw [Nat.div_lt_iff_lt_mul (by norm_num [U32] : (0:Nat) < U32)]
  calc u * m < U32 * m := (Nat.mul_lt_mul_right hm).mpr hu
    _ = m * U32 := Nat.mul_comm _ _

theorem jsFloorMul_one {u : Nat} (hu : u < U32) : jsFloorMul u 1 = 0 := by
  rw [jsFloorMul, Nat.mul_one]
  exact Nat.div_eq_of_lt hu

/-! ## Unfolding equations for the loops -/

theorem shuffleLoop_zero (f : Nat → Nat × Nat) (a : List String) (s : Nat) :
    shuffleLoop f a 0 s = a := rfl

theorem shuffleLoop_succ (f : Nat → Nat × Nat) (a : List String) (m s : Nat) :
    shuffleLoop f a (m + 1) s =
      shuffleLoop f (listSwap a m (jsFloorMul (f s).1 (m + 1))) m (f s).2 := rfl

theorem specFYLoop_zero (f : Nat → Nat × Nat) (a : List String) (s : Nat) :
    specFYLoop f a 0 s = a := rfl

theorem specFYLoop_succ (f : Nat → Nat × Nat) (a : List String) (m s : Nat) :
    specFYLoop f a (m + 1) s =
      specFYLoop f (listSwap a (m + 1) (jsFloorMul (f s).1 (m + 2))) m (f s).2 := rfl

/-! ## The shuffle is a permutation (C6) and matches the spec procedure (C7) -/

theorem shuffleLoop_perm (f : Nat → Nat × Nat) (m : Nat) :
    ∀ (a : List String) (s : Nat), (shuffleLoop f a m s).Perm a := by
  induction m with
  | zero =>
    intro a s
    rw [shuffleLoop_zero]
  | succ m' ih =>
    intro a s
    rw [shuffleLoop_succ]
    exact (ih _ _).trans (listSwap_perm a m' _)

/-- C6: for every input array of strings and every seed, `seededShuffle`
returns a list containing exactly the same elements as the input (a
permutation, i.e. equal as multisets).  The source copies the array
(`const a = [...arr]`) before swapping, so the input array itself is
never mutated; the embedding is accordingly a pure function of the input
list. -/
theorem c6_seededShuffle_perm (arr : List String) (seed : Nat) :
    (seededShuffle arr seed).Perm arr :=
  shuffleLoop_perm mulberry32Step arr.length arr seed

theorem shuffleLoop_eq_specFYLoop (f : Nat → Nat × Nat) (hf : ∀ s, (f s).1 < U32) (m : Nat) :
    ∀ (a : List String) (s : Nat), shuffleLoop f a (m + 1) s = specFYLoop f a m s := by
  induction m with
  | zero =>
    intro a s
    rw [shuffleLoop_succ, shuffleLoop_zero, specFYLoop_zero]
    rw [jsFloorMul_one (hf s), listSwap_same]
  | succ m' ih =>
    intro a s
    rw [shuffleLoop_succ, specFYLoop_succ]
    exact ih _ _

/-- C7: the permutation computed by `seededShuffle` equals the spec's
reference Fisher–Yates procedure (index `m` from `length − 1` down to `1`,
`i = ⌊r·(m+1)⌋`, swap positions `m` and `i`, with the PRNG draws taken in
that order).  The source loop additionally runs one final iteration at
position `0`, which consumes one extra draw but performs the identity
swap `⌊r·1⌋ = 0`, so the resulting lists are equal. -/
theorem c7_shuffle_refines_spec (arr : List String) (seed : Nat) :
    seededShuffle arr seed = specFisherYates arr seed := by
  rw [seededShuffle, specFisherYates]
  cases h : arr.length with
  | zero => rfl
  | succ n => exact shuffleLoop_eq_specFYLoop mulberry32Step mulberry32Step_fst_lt n arr seed

/-! ## Range of the generator's draws (C9) -/

/-- C9: every draw of `mulberry32` is `u / 2^32` for an integer
`0 ≤ u < 2^32` — the embedding returns the numerator `u` itself — hence
the float lies in `[0, 1)`, and `⌊r·m⌋` is an index in `[0, m−1]` for any
positive `m`. -/
theorem c9_mulberry_range (a : Nat) :
    (mulberry32Step a).1 < U32 ∧
    (0 : ℚ) ≤ ((mulberry32Step a).1 : ℚ) / (U32 : ℚ) ∧
    ((mulberry32Step a).1 : ℚ) / (U32 : ℚ) < 1 ∧
    ∀ m : Nat, 0 < m → jsFloorMul (mulberry32Step a).1 m < m := by
  have h := mulberry32Step_fst_lt a
  refine ⟨h, ?_, ?_, fun m hm => jsFloorMul_lt h hm⟩
  · positivity
  · rw [div_lt_one (by norm_num [U32] : (0:ℚ) < (U32:ℚ))]
    exact_mod_cast h

/-- Witness for C9, at state `0` and `m = 5`. -/
theorem c9_mulberry_range_witness : jsFloorMul (mulberry32Step 0).1 5 < 5 :=
  (c9_mulberry_range 0).2.2.2 5 (by norm_num)

/-! ## The mapping is one fixed constant (C10) -/

/-- C10: `buildMapping` seeds the shuffle with the hard-coded constant
`12345`; no passphrase or other user input reaches the construction, so
for the fixed constants `emojiPool` and `chars` every invocation returns
the same forward mapping, and hence the same inverse mapping. -/
theorem c10_fixed_mapping (pool : List String) (chars : List Char) :
    buildMapping pool chars = buildMappingSeed 12345 pool chars ∧
    reverseMap (buildMapping pool chars) = reverseMap (buildMappingSeed 12345 pool chars) :=
  ⟨rfl, rfl⟩

/-! ## Characterising the forward map -/

theorem jsLookup_eq_none_iff {α β : Type} [DecidableEq α] (l : List (α × β)) (k : α) :
    jsLookup l k = none ↔ k ∉ keysOf l := by
  induction l with
  | nil => simp [jsLookup, keysOf]
  | cons p t ih =>
    obtain ⟨k₀, v₀⟩ := p
    by_cases h : k₀ = k
    · subst h
      simp [jsLookup, keysOf]
    · simp [jsLookup, h, keysOf, ih]
      intro hk
      exact fun hh => h hh.symm

theorem jsInsert_of_not_mem {α β : Type} [DecidableEq α] {l : List (α × β)} {k : α} (v : β)
    (h : k ∉ keysOf l) : jsInsert l k v = l ++ [(k, v)] := by
  induction l with
  | nil => simp [jsInsert]
  | cons p t ih =>
    obtain ⟨k₀, v₀⟩ := p
    simp only [keysOf, List.map_cons, List.mem_cons] at h
    push_neg at h
    rw [jsInsert, if_neg (fun hh => h.1 hh.symm), ih h.2]
    simp

theorem keysOf_append {α β : Type} (l₁ l₂ : List (α × β)) :
    keysOf (l₁ ++ l₂) = keysOf l₁ ++ keysOf l₂ := by
  simp [keysOf]

theorem keysOf_mappingEntries (pool : List String) (cs : List Char) (i : Nat) :
    keysOf (mappingEntries pool cs i) = cs := by
  induction cs generalizing i with
  | nil => simp [mappingEntries, keysOf]
  | cons c t ih => simp [mappingEntries, keysOf] at ih ⊢; exact ih _

theorem buildLoop_eq_entries (pool : List String) (cs : List Char) :
    ∀ (i : Nat) (acc : List (Char × String)), cs.Nodup →
      (∀ c ∈ cs, c ∉ keysOf acc) →
      buildLoop pool cs i acc = acc ++ mappingEntries pool cs i := by
  induction cs with
  | nil =>
    intro i acc _ _
    simp [buildLoop, mappingEntries]
  | cons c t ih =>
    intro i acc hnd hfresh
    rw [buildLoop, jsInsert_of_not_mem _ (hfresh c (List.mem_cons_self c t))]
    rw [ih (i + 1) _ (List.nodup_cons.mp hnd).2]
    · rw [mappingEntries]
      simp
    · intro c' hc'
      rw [keysOf_append]
      simp only [List.mem_append, keysOf, List.map_cons, List.map_nil]
      push_neg
      constructor
      · exact hfresh c' (List.mem_cons_of_mem c hc')
      · simp only [List.mem_singleton]
        intro hcc
        exact (List.nodup_cons.mp hnd).1 (hcc ▸ hc')

theorem buildMapping_eq_entries (pool : List String) (chars : List Char)
    (h : chars.Nodup) :
    buildMapping pool chars = mappingEntries (seededShuffle pool 12345) chars 0 := by
  rw [buildMapping]
  rw [buildLoop_eq_entries _ _ 0 [] h (by simp [keysOf])]
  simp

theorem lookup_mappingEntries_get (pool : List String) (cs : List Char) :
    ∀ (i j : Nat) (hj : j < cs.length), cs.Nodup →
      jsLookup (mappingEntries pool cs i) (cs.get ⟨j, hj⟩) =
        some (pool.getD ((i + j) % pool.length) "") := by
  induction cs with
  | nil =>
    intro i j hj
    simp at hj
  | cons c t ih =>
    intro i j hj hnd
    match j with
    | 0 =>
      rw [mappingEntries]
      simp [jsLookup]
    | j' + 1 =>
      rw [mappingEntries, jsLookup]
      have hget : (c :: t).get ⟨j' + 1, hj⟩ = t.get ⟨j', by simpa using hj⟩ := rfl
      have hne : ¬ c = (c :: t).get ⟨j' + 1, hj⟩ := by
        rw [hget]
        intro hc
        exact (List.nodup_cons.mp hnd).1 (hc ▸ (t.get_mem _ _))
      rw [if_neg hne, hget, ih (i + 1) j' (by simpa using hj) (List.nodup_cons.mp hnd).2]
      have : i + 1 + j' = i + (j' + 1) := by omega
      rw [this]

/-! ## Characterising the inverse map -/

theorem revFold_lookup (l : List (Char × String)) :
    ∀ (r : List (String × Char)) (e : String),
      jsLookup (l.foldl (fun rev p => jsInsert rev p.2 p.1) r) e =
        match lookupLast l e with
        | some k => some k
        | none => jsLookup r e := by
  induction l with
  | nil =>
    intro r e
    simp [lookupLast]
  | cons p t ih =>
    intro r e
    obtain ⟨k, v⟩ := p
    rw [List.foldl_cons, ih, lookupLast]
    cases h : lookupLast t e with
    | some k' => simp
    | none =>
      simp only
      rw [jsLookup_insert]
      by_cases hv : v = e
      · simp [hv]
      · simp [hv]

theorem foldKeys_eq_foldEntries (m : List (Char × String)) (ks : List Char) :
    ∀ r : List (String × Char),
      ks.foldl
        (fun rev k =>
          match jsLookup m k with
          | some v => jsInsert rev v k
          | none => rev) r =
      (ks.filterMap (fun k => (jsLookup m k).map (fun v => (k, v)))).foldl
        (fun rev p => jsInsert rev p.2 p.1) r := by
  induction ks with
  | nil =>
    intro r
    rfl
  | cons k ks ih =>
    intro r
    cases h : jsLookup m k with
    | none =>
      simp only [List.foldl_cons, List.filterMap_cons, h, Option.map_none']
      exact ih r
    | some v =>
      simp only [List.foldl_cons, List.filterMap_cons, h, Option.map_some']
      exact ih (jsInsert r v k)

theorem reverseMap_eq_fold (m : List (Char × String)) :
    reverseMap m = (forInEntries m).foldl (fun rev p => jsInsert rev p.2 p.1) [] := by
  rw [reverseMap, forInEntries]
  exact foldKeys_eq_foldEntries m (jsForInKeys m) []

theorem reverseMap_lookup (m : List (Char × String)) (e : String) :
    jsLookup (reverseMap m) e = lookupLast (forInEntries m) e := by
  rw [reverseMap_eq_fold, revFold_lookup]
  cases h : lookupLast (forInEntries m) e with
  | some k => simp
  | none => simp [jsLookup]


theorem lookupLast_mem {m : List (Char × String)} {e : String} {k : Char}
    (h : lookupLast m e = some k) : (k, e) ∈ m := by
  induction m with
  | nil => simp [lookupLast] at h
  | cons p t ih =>
    obtain ⟨k₀, v₀⟩ := p
    rw [lookupLast] at h
    cases h' : lookupLast t e with
    | some k' =>
      rw [h'] at h
      simp only [Option.some.injEq] at h
      subst h
      exact List.mem_cons_of_mem _ (ih h')
    | none =>
      rw [h'] at h
      simp only at h
      by_cases hv : v₀ = e
      · rw [if_pos hv] at h
        simp only [Option.some.injEq] at h
        subst h
        subst hv
        exact List.mem_cons_self _ _
      · rw [if_neg hv] at h
        exact absurd h (by simp)

theorem lookupLast_exists {m : List (Char × String)} {c : Char} {e : String}
    (h : (c, e) ∈ m) : ∃ k, lookupLast m e = some k := by
  induction m with
  | nil => simp at h
  | cons p t ih =>
    obtain ⟨k₀, v₀⟩ := p
    rw [lookupLast]
    rcases List.mem_cons.mp h with hh | hh
    · cases h' : lookupLast t e with
      | some k' => exact ⟨k', rfl⟩
      | none =>
        have hv : v₀ = e := (Prod.ext_iff.mp hh).2.symm
        rw [if_pos hv]
        exact ⟨k₀, rfl⟩
    · obtain ⟨k, hk⟩ := ih hh
      rw [hk]
      exact ⟨k, rfl⟩

theorem jsLookup_mem {α β : Type} [DecidableEq α] {l : List (α × β)} {k : α} {v : β}
    (h : jsLookup l k = some v) : (k, v) ∈ l := by
  induction l with
  | nil => simp [jsLookup] at h
  | cons p t ih =>
    obtain ⟨k₀, v₀⟩ := p
    rw [jsLookup] at h
    by_cases hk : k₀ = k
    · rw [if_pos hk] at h
      simp only [Option.some.injEq] at h
      subst hk
      subst h
      exact List.mem_cons_self _ _
    · rw [if_neg hk] at h
      exact List.mem_cons_of_mem _ (ih h)

theorem mem_jsLookup_of_nodup {α β : Type} [DecidableEq α] {l : List (α × β)} {k : α} {v : β}
    (hnd : (keysOf l).Nodup) (h : (k, v) ∈ l) : jsLookup l k = some v := by
  induction l with
  | nil => simp at h
  | cons p t ih =>
    obtain ⟨k₀, v₀⟩ := p
    simp only [keysOf, List.map_cons, List.nodup_cons] at hnd
    rcases List.mem_cons.mp h with hh | hh
    · obtain ⟨h1, h2⟩ := Prod.ext_iff.mp hh
      rw [jsLookup, if_pos h1.symm]
      simp only at h2
      rw [h2]
    · rw [jsLookup]
      by_cases hk : k₀ = k
      · exfalso
        subst hk
        exact hnd.1 (by simpa [keysOf] using List.mem_map_of_mem Prod.fst hh)
      · rw [if_neg hk]
        exact ih hnd.2 hh

theorem mem_jsForInKeys (m : List (Char × String)) (k : Char) :
    k ∈ jsForInKeys m ↔ k ∈ keysOf m := by
  rw [jsForInKeys]
  simp only [List.mem_append, List.mem_filter, decide_eq_true_eq]
  by_cases hd : k ∈ digitChars
  · simp [hd]
  · simp [hd]

theorem mem_forInEntries {m : List (Char × String)} (hnd : (keysOf m).Nodup)
    (p : Char × String) : p ∈ forInEntries m ↔ p ∈ m := by
  obtain ⟨k, v⟩ := p
  rw [forInEntries]
  simp only [List.mem_filterMap, Option.map_eq_some']
  constructor
  · rintro ⟨k', hk', v', hv', hEq⟩
    obtain ⟨h1, h2⟩ := Prod.ext_iff.mp hEq
    simp only at h1 h2
    subst h1
    subst h2
    exact jsLookup_mem hv'
  · intro hm
    refine ⟨k, (mem_jsForInKeys m k).mpr ?_, v, mem_jsLookup_of_nodup hnd hm, rfl⟩
    have : (k, v).1 ∈ m.map Prod.fst := List.mem_map_of_mem Prod.fst hm
    simpa [keysOf] using this

/-! ## Key sets stay duplicate-free -/

theorem keysOf_jsInsert_mem {α β : Type} [DecidableEq α] (l : List (α × β)) (k : α) (v : β)
    (h : k ∈ keysOf l) : keysOf (jsInsert l k v) = keysOf l := by
  induction l with
  | nil => simp [keysOf] at h
  | cons p t ih =>
    obtain ⟨k₀, v₀⟩ := p
    by_cases hk : k₀ = k
    · subst hk
      simp [jsInsert, keysOf]
    · rw [jsInsert, if_neg hk]
      show k₀ :: keysOf (jsInsert t k v) = k₀ :: keysOf t
      have hkt : k ∈ keysOf t := by
        simp only [keysOf, List.map_cons, List.mem_cons] at h
        rcases h with h | h
        · exact absurd h.symm hk
        · exact h
      rw [ih hkt]

theorem jsInsert_keys_nodup {α β : Type} [DecidableEq α] {l : List (α × β)} (k : α) (v : β)
    (h : (keysOf l).Nodup) : (keysOf (jsInsert l k v)).Nodup := by
  by_cases hm : k ∈ keysOf l
  · rw [keysOf_jsInsert_mem _ _ _ hm]
    exact h
  · rw [jsInsert_of_not_mem _ hm, keysOf_append]
    have : keysOf [(k, v)] = [k] := by simp [keysOf]
    rw [this]
    simp [List.nodup_append, h, hm]

theorem buildLoop_keys_nodup (pool : List String) (cs : List Char) :
    ∀ (i : Nat) (acc : List (Char × String)), (keysOf acc).Nodup →
      (keysOf (buildLoop pool cs i acc)).Nodup := by
  induction cs with
  | nil =>
    intro i acc h
    rw [buildLoop]
    exact h
  | cons c t ih =>
    intro i acc h
    rw [buildLoop]
    exact ih _ _ (jsInsert_keys_nodup _ _ h)

theorem buildMapping_keys_nodup (pool : List String) (chars : List Char) :
    (keysOf (buildMapping pool chars)).Nodup := by
  rw [buildMapping]
  exact buildLoop_keys_nodup _ _ 0 [] (by simp [keysOf])

theorem buildLoop_key_mem (pool : List String) (cs : List Char) :
    ∀ (i : Nat) (acc : List (Char × String)) (c : Char),
      c ∈ cs ∨ c ∈ keysOf acc → c ∈ keysOf (buildLoop pool cs i acc) := by
  induction cs with
  | nil =>
    intro i acc c h
    rw [buildLoop]
    rcases h with h | h
    · simp at h
    · exact h
  | cons c₀ t ih =>
    intro i acc c h
    rw [buildLoop]
    apply ih
    by_cases hc : c ∈ t
    · exact Or.inl hc
    · right
      rcases h with h | h
      · have : c = c₀ := by
          rcases List.mem_cons.mp h with h | h
          · exact h
          · exact absurd h hc
        subst this
        by_cases hm : c ∈ keysOf acc
        · rw [keysOf_jsInsert_mem _ _ _ hm]
          exact hm
        · rw [jsInsert_of_not_mem _ hm, keysOf_append]
          simp [keysOf]
      · by_cases hm : c₀ ∈ keysOf acc
        · rw [keysOf_jsInsert_mem _ _ _ hm]
          exact h
        · rw [jsInsert_of_not_mem _ hm, keysOf_append]
          simp only [List.mem_append]
          exact Or.inl h

/-! ## Bijection under no wraparound (C2) -/

theorem buildMapping_lookup_get (pool : List String) (chars : List Char)
    (hchars : chars.Nodup) (j : Nat) (hj : j < chars.length) :
    jsLookup (buildMapping pool chars) (chars.get ⟨j, hj⟩) =
      some ((seededShuffle pool 12345).getD
        (j % (seededShuffle pool 12345).length) "") := by
  rw [buildMapping_eq_entries _ _ hchars]
  have := lookup_mappingEntries_get (seededShuffle pool 12345) chars 0 j hj hchars
  simpa using this

theorem buildMapping_inj (pool : List String) (chars : List Char)
    (hchars : chars.Nodup) (hpool : pool.Nodup) (hlen : chars.length ≤ pool.length) :
    ∀ c₁ c₂ v, jsLookup (buildMapping pool chars) c₁ = some v →
      jsLookup (buildMapping pool chars) c₂ = some v → c₁ = c₂ := by
  have hperm : (seededShuffle pool 12345).Perm pool :=
    shuffleLoop_perm mulberry32Step pool.length pool 12345
  have hplnd : (seededShuffle pool 12345).Nodup := hperm.nodup_iff.mpr hpool
  have hpllen : (seededShuffle pool 12345).length = pool.length := hperm.length_eq
  have hkeys : keysOf (buildMapping pool chars) = chars := by
    rw [buildMapping_eq_entries _ _ hchars, keysOf_mappingEntries]
  intro c₁ c₂ v h₁ h₂
  have hm₁ : c₁ ∈ chars := by
    rw [← hkeys]
    by_contra hc
    rw [← jsLookup_eq_none_iff (buildMapping pool chars) c₁] at hc
    rw [h₁] at hc
    exact absurd hc (by simp)
  have hm₂ : c₂ ∈ chars := by
    rw [← hkeys]
    by_contra hc
    rw [← jsLookup_eq_none_iff (buildMapping pool chars) c₂] at hc
    rw [h₂] at hc
    exact absurd hc (by simp)
  obtain ⟨j₁, hj₁, hc₁⟩ := List.mem_iff_getElem.mp hm₁
  obtain ⟨j₂, hj₂, hc₂⟩ := List.mem_iff_getElem.mp hm₂
  have e₁ := buildMapping_lookup_get pool chars hchars j₁ hj₁
  have e₂ := buildMapping_lookup_get pool chars hchars j₂ hj₂
  rw [List.get_eq_getElem, hc₁, h₁] at e₁
  rw [List.get_eq_getElem, hc₂, h₂] at e₂
  have hj₁' : j₁ < (seededShuffle pool 12345).length := by omega
  have hj₂' : j₂ < (seededShuffle pool 12345).length := by omega
  rw [Nat.mod_eq_of_lt hj₁', List.getD_eq_getElem _ _ hj₁'] at e₁
  rw [Nat.mod_eq_of_lt hj₂', List.getD_eq_getElem _ _ hj₂'] at e₂
  have hv : (seededShuffle pool 12345)[j₁] = (seededShuffle pool 12345)[j₂] := by
    have := e₁.symm.trans e₂
    simpa using this
  have : j₁ = j₂ := (hplnd.getElem_inj_iff).mp hv
  subst this
  rw [← hc₁, ← hc₂]

/-- C2: whenever the alphabet is duplicate-free, the emoji pool is
duplicate-free (the spec's data model calls both "fixed ordered sets"),
and the alphabet is no longer than the pool, the forward mapping built by
`buildMapping` is injective — no two alphabet characters map to the same
emoji — and `reverseMap` exactly undoes it: every alphabet character `c`
has a forward image `v` with `inverse[v] = c`. -/
theorem c2_bijection (pool : List String) (chars : List Char)
    (hchars : chars.Nodup) (hpool : pool.Nodup) (hlen : chars.length ≤ pool.length) :
    (∀ c₁ c₂ v, jsLookup (buildMapping pool chars) c₁ = some v →
        jsLookup (buildMapping pool chars) c₂ = some v → c₁ = c₂) ∧
    (∀ c ∈ chars, ∃ v, jsLookup (buildMapping pool chars) c = some v ∧
        jsLookup (reverseMap (buildMapping pool chars)) v = some c) := by
  have hinj := buildMapping_inj pool chars hchars hpool hlen
  refine ⟨hinj, ?_⟩
  intro c hc
  obtain ⟨j, hj, hcj⟩ := List.mem_iff_getElem.mp hc
  have e := buildMapping_lookup_get pool chars hchars j hj
  rw [List.get_eq_getElem, hcj] at e
  refine ⟨_, e, ?_⟩
  rw [reverseMap_lookup]
  have hmem : (c, (seededShuffle pool 12345).getD
      (j % (seededShuffle pool 12345).length) "") ∈ buildMapping pool chars :=
    jsLookup_mem e
  have hfm := (mem_forInEntries (buildMapping_keys_nodup pool chars) _).mpr hmem
  obtain ⟨k, hk⟩ := lookupLast_exists hfm
  rw [hk]
  have hkmem := (mem_forInEntries (buildMapping_keys_nodup pool chars) _).mp
    (lookupLast_mem hk)
  have hklook := mem_jsLookup_of_nodup (buildMapping_keys_nodup pool chars) hkmem
  rw [hinj k c _ hklook e]

/-- Witness for C2 with pool `["🍎", "🍌"]` and alphabet `['a', 'b']`. -/
theorem c2_bijection_witness :
    ∃ v, jsLookup (buildMapping ["🍎", "🍌"] ['a', 'b']) 'a' = some v ∧
      jsLookup (reverseMap (buildMapping ["🍎", "🍌"] ['a', 'b'])) v = some 'a' :=
  (c2_bijection ["🍎", "🍌"] ['a', 'b'] (by decide) (by decide) (by decide)).2 'a'
    (by decide)

/-! ## Last-writer-wins inverse in for-in order (C5) -/

theorem lookupLast_greatest (l : List (Char × String)) (e : String)
    (hex : ∃ i, ∃ hi : i < l.length, (l.get ⟨i, hi⟩).2 = e) :
    ∃ i, ∃ hi : i < l.length, (l.get ⟨i, hi⟩).2 = e ∧
      (∀ i', ∀ hi' : i' < l.length, (l.get ⟨i', hi'⟩).2 = e → i' ≤ i) ∧
      lookupLast l e = some (l.get ⟨i, hi⟩).1 := by
  induction l with
  | nil =>
    obtain ⟨i, hi, _⟩ := hex
    simp at hi
  | cons p t ih =>
    obtain ⟨k₀, v₀⟩ := p
    by_cases hrest : ∃ i, ∃ hi : i < t.length, (t.get ⟨i, hi⟩).2 = e
    · obtain ⟨i₀, hi₀, hval, hmax, hlook⟩ := ih hrest
      refine ⟨i₀ + 1, by simpa using hi₀, hval, ?_, ?_⟩
      · intro i' hi' hv'
        match i' with
        | 0 => omega
        | j + 1 =>
          have := hmax j (by simpa using hi') hv'
          omega
      · rw [lookupLast, hlook]
        rfl
    · push_neg at hrest
      have hnone : lookupLast t e = none := by
        cases h : lookupLast t e with
        | none => rfl
        | some k =>
          obtain ⟨i, hi, hget⟩ := List.mem_iff_getElem.mp (lookupLast_mem h)
          refine absurd ?_ (hrest i hi)
          rw [List.get_eq_getElem, hget]
      have h0 : v₀ = e := by
        obtain ⟨i, hi, hv⟩ := hex
        match i with
        | 0 => exact hv
        | j + 1 => exact absurd hv (hrest j (by simpa using hi))
      refine ⟨0, by simp, h0, ?_, ?_⟩
      · intro i' hi' hv'
        match i' with
        | 0 => omega
        | j + 1 => exact absurd hv' (hrest j (by simpa using hi'))
      · rw [lookupLast, hnone]
        show (if v₀ = e then some k₀ else none) = some k₀
        rw [if_pos h0]

/-- C5 (amended per the counterexample): for every emoji string `e` that
occurs as the value of at least one forward-mapping entry, the inverse
mapping assigns to `e` the alphabet character whose write comes last in
JS for-in enumeration order over the forward mapping — digit-character
keys first in ascending numeric order, then the remaining keys in
alphabet (insertion) order — i.e. the key of the entry with the greatest
enumeration position among those whose value is `e`.  This coincides
with the greatest alphabet index exactly when no digit key is involved
in the collision. -/
theorem c5_inverse_forIn_last_writer (pool : List String) (chars : List Char) (e : String)
    (hocc : ∃ p ∈ buildMapping pool chars, p.2 = e) :
    ∃ i, ∃ hi : i < (forInEntries (buildMapping pool chars)).length,
      ((forInEntries (buildMapping pool chars)).get ⟨i, hi⟩).2 = e ∧
      (∀ i', ∀ hi' : i' < (forInEntries (buildMapping pool chars)).length,
        ((forInEntries (buildMapping pool chars)).get ⟨i', hi'⟩).2 = e → i' ≤ i) ∧
      jsLookup (reverseMap (buildMapping pool chars)) e =
        some ((forInEntries (buildMapping pool chars)).get ⟨i, hi⟩).1 := by
  obtain ⟨p, hp, hpe⟩ := hocc
  have hp' : p ∈ forInEntries (buildMapping pool chars) :=
    (mem_forInEntries (buildMapping_keys_nodup pool chars) p).mpr hp
  obtain ⟨i, hi, hget⟩ := List.mem_iff_getElem.mp hp'
  have hex : ∃ i, ∃ hi : i < (forInEntries (buildMapping pool chars)).length,
      ((forInEntries (buildMapping pool chars)).get ⟨i, hi⟩).2 = e :=
    ⟨i, hi, by rw [List.get_eq_getElem, hget, hpe]⟩
  obtain ⟨i, hi, h1, h2, h3⟩ := lookupLast_greatest _ e hex
  exact ⟨i, hi, h1, h2, by rw [reverseMap_lookup]; exact h3⟩

/-- Counterexample to C5 as stated: pool `["🍎"]`, alphabet `['a', '0']`
(both characters share `"🍎"` by index wraparound).  The greatest
alphabet index whose forward entry is `"🍎"` is `1`, the digit `'0'` —
yet the inverse maps `"🍎"` to `'a'`, because JS for-in enumerates the
integer-like key `"0"` before `"a"`, making `'a'` the last writer. -/
theorem c5_counterexample :
    (['a', '0'] : List Char).Nodup ∧
    (∃ p ∈ buildMapping ["🍎"] ['a', '0'], p.2 = "🍎") ∧
    poolEntryOf (seededShuffle ["🍎"] 12345) 1 = "🍎" ∧
    (∀ j', j' < (['a', '0'] : List Char).length →
        poolEntryOf (seededShuffle ["🍎"] 12345) j' = "🍎" → j' ≤ 1) ∧
    (['a', '0'] : List Char).get ⟨1, by decide⟩ = '0' ∧
    jsLookup (reverseMap (buildMapping ["🍎"] ['a', '0'])) "🍎" = some 'a' ∧
    ('a' : Char) ≠ '0' :=
  ⟨by decide, by decide, by decide, by decide, by decide, by decide, by decide⟩

/-- Witness for C5 (amended), at pool `["🍎"]`, alphabet `['a', '0']` and
emoji `"🍎"`: the last for-in writer wins. -/
theorem c5_inverse_forIn_last_writer_witness :
    ∃ i, ∃ hi : i < (forInEntries (buildMapping ["🍎"] ['a', '0'])).length,
      ((forInEntries (buildMapping ["🍎"] ['a', '0'])).get ⟨i, hi⟩).2 = "🍎" ∧
      (∀ i', ∀ hi' : i' < (forInEntries (buildMapping ["🍎"] ['a', '0'])).length,
        ((forInEntries (buildMapping ["🍎"] ['a', '0'])).get ⟨i', hi'⟩).2 = "🍎" →
          i' ≤ i) ∧
      jsLookup (reverseMap (buildMapping ["🍎"] ['a', '0'])) "🍎" =
        some ((forInEntries (buildMapping ["🍎"] ['a', '0'])).get ⟨i, hi⟩).1 :=
  c5_inverse_forIn_last_writer ["🍎"] ['a', '0'] "🍎" (by decide)

/-! ## Determinism of the generator and the mapping build (C8) -/

theorem mulberryRun_nil_inv {s t : Nat} (h : MulberryRun s [] t) : t = s := by
  cases h
  rfl

theorem mulberryRun_cons_inv {s t r : Nat} {rs : List Nat}
    (h : MulberryRun s (r :: rs) t) :
    (mulberry32Step s).1 = r ∧ MulberryRun (mulberry32Step s).2 rs t := by
  cases h with
  | step _ _ s' _ _ hstep hrun =>
    constructor
    · rw [hstep]
    · rw [hstep]
      exact hrun

theorem mulberryRun_det (l₁ : List Nat) :
    ∀ (s t₁ : Nat) (l₂ : List Nat) (t₂ : Nat),
      MulberryRun s l₁ t₁ → MulberryRun s l₂ t₂ → l₁.length = l₂.length →
      l₁ = l₂ ∧ t₁ = t₂ := by
  induction l₁ with
  | nil =>
    intro s t₁ l₂ t₂ h₁ h₂ hlen
    have h0 : l₂ = [] := List.length_eq_zero.mp hlen.symm
    subst h0
    rw [mulberryRun_nil_inv h₁, mulberryRun_nil_inv h₂]
    exact ⟨rfl, rfl⟩
  | cons r rs ih =>
    intro s t₁ l₂ t₂ h₁ h₂ hlen
    cases l₂ with
    | nil => simp at hlen
    | cons r₂ rs₂ =>
      obtain ⟨hr₁, hrun₁⟩ := mulberryRun_cons_inv h₁
      obtain ⟨hr₂, hrun₂⟩ := mulberryRun_cons_inv h₂
      obtain ⟨hl, ht⟩ := ih _ _ rs₂ t₂ hrun₁ hrun₂ (by simpa using hlen)
      refine ⟨?_, ht⟩
      rw [← hr₁, ← hr₂, hl]

theorem shuffleRun_det {arr : List String} {seed : Nat} {o₁ o₂ : List String}
    (h₁ : ShuffleRun arr seed o₁) (h₂ : ShuffleRun arr seed o₂) : o₁ = o₂ := by
  obtain ⟨l₁, t₁, hr₁, hl₁, ho₁⟩ := h₁
  obtain ⟨l₂, t₂, hr₂, hl₂, ho₂⟩ := h₂
  obtain ⟨hl, _⟩ := mulberryRun_det l₁ seed t₁ l₂ t₂ hr₁ hr₂ (by rw [hl₁, hl₂])
  subst hl
  rw [ho₁, ho₂]

theorem mappingRun_det {p : List String} {chars : List Char}
    {m₁ m₂ : List (Char × String)}
    (h₁ : MappingRun p chars m₁) (h₂ : MappingRun p chars m₂) : m₁ = m₂ := by
  obtain ⟨pl₁, hs₁, hm₁⟩ := h₁
  obtain ⟨pl₂, hs₂, hm₂⟩ := h₂
  rw [hm₁, hm₂, shuffleRun_det hs₁ hs₂]

theorem mulberryDraws_zero (f : Nat → Nat × Nat) (s : Nat) :
    mulberryDraws f s 0 = ([], s) := rfl

theorem mulberryDraws_succ (f : Nat → Nat × Nat) (s n : Nat) :
    mulberryDraws f s (n + 1) =
      ((f s).1 :: (mulberryDraws f (f s).2 n).1, (mulberryDraws f (f s).2 n).2) := rfl

theorem mulberryDraws_length (f : Nat → Nat × Nat) (n : Nat) :
    ∀ s, (mulberryDraws f s n).1.length = n := by
  induction n with
  | zero =>
    intro s
    rw [mulberryDraws_zero]
    rfl
  | succ n ih =>
    intro s
    rw [mulberryDraws_succ]
    simp [ih]

theorem mulberryDraws_run (n : Nat) :
    ∀ s, MulberryRun s (mulberryDraws mulberry32Step s n).1
      (mulberryDraws mulberry32Step s n).2 := by
  induction n with
  | zero =>
    intro s
    rw [mulberryDraws_zero]
    exact MulberryRun.nil s
  | succ n ih =>
    intro s
    rw [mulberryDraws_succ]
    exact MulberryRun.step s (mulberry32Step s).1 (mulberry32Step s).2 _ _ rfl
      (ih (mulberry32Step s).2)

theorem swapFold_zero (a : List String) (draws : List Nat) : swapFold a 0 draws = a := rfl

theorem swapFold_succ (a : List String) (m r : Nat) (rs : List Nat) :
    swapFold a (m + 1) (r :: rs) =
      swapFold (listSwap a m (jsFloorMul r (m + 1))) m rs := rfl

theorem swapFold_draws (f : Nat → Nat × Nat) (m : Nat) :
    ∀ (s : Nat) (a : List String),
      swapFold a m (mulberryDraws f s m).1 = shuffleLoop f a m s := by
  induction m with
  | zero =>
    intro s a
    rw [mulberryDraws_zero, swapFold_zero, shuffleLoop_zero]
  | succ m ih =>
    intro s a
    rw [mulberryDraws_succ, swapFold_succ, shuffleLoop_succ]
    exact ih _ _

theorem shuffleRun_seededShuffle (arr : List String) (seed : Nat) :
    ShuffleRun arr seed (seededShuffle arr seed) :=
  ⟨(mulberryDraws mulberry32Step seed arr.length).1,
   (mulberryDraws mulberry32Step seed arr.length).2,
   mulberryDraws_run arr.length seed,
   mulberryDraws_length mulberry32Step arr.length seed,
   (swapFold_draws mulberry32Step arr.length seed arr).symm⟩

theorem mappingRun_buildMapping (p : List String) (chars : List Char) :
    MappingRun p chars (buildMapping p chars) :=
  ⟨seededShuffle p 12345, shuffleRun_seededShuffle p 12345, rfl⟩

/-- C8: the construction is deterministic.  Any two runs of the generator
from the same state that draw equally often produce bit-for-bit identical
draw sequences and final states, and any two executions of the seed-fixed
shuffle-and-zip mapping construction over the same constants produce
identical forward mappings. -/
theorem c8_determinism (p : List String) (chars : List Char) (s : Nat)
    (l₁ l₂ : List Nat) (t₁ t₂ : Nat) (m₁ m₂ : List (Char × String)) :
    (MulberryRun s l₁ t₁ → MulberryRun s l₂ t₂ → l₁.length = l₂.length →
      l₁ = l₂ ∧ t₁ = t₂) ∧
    (MappingRun p chars m₁ → MappingRun p chars m₂ → m₁ = m₂) :=
  ⟨fun h₁ h₂ hl => mulberryRun_det l₁ s t₁ l₂ t₂ h₁ h₂ hl,
   fun h₁ h₂ => mappingRun_det h₁ h₂⟩

/-- Witness for C8: two executions of the mapping build over the pool
`["🍎"]` and alphabet `['a']` agree, pinning the concrete value. -/
theorem c8_determinism_witness : buildMapping ["🍎"] ['a'] = [('a', "🍎")] := by
  have h1 : MappingRun ["🍎"] ['a'] (buildMapping ["🍎"] ['a']) :=
    mappingRun_buildMapping _ _
  have h2 : MappingRun ["🍎"] ['a'] [('a', "🍎")] := by
    have he : buildMapping ["🍎"] ['a'] = [('a', "🍎")] := by decide
    rw [← he]
    exact mappingRun_buildMapping _ _
  exact (c8_determinism ["🍎"] ['a'] 0 [] [] 0 0 (buildMapping ["🍎"] ['a'])
    [('a', "🍎")]).2 h1 h2

/-! ## The encoder emits mapped tokens or the placeholder (C4) -/

theorem string_data_ne_nil {s : String} (h : s ≠ "") : s.data ≠ [] := by
  intro hd
  apply h
  have he : s = String.mk s.data := rfl
  rw [he, hd]

theorem encodeChar_eq_claim (m : List (Char × String)) (c : Char)
    (hne : ∀ p ∈ m, p.2 ≠ "") : encodeChar m c = encodeClaimTok m c := by
  rw [encodeChar, encodeClaimTok]
  cases h : jsLookup m c with
  | none => rfl
  | some e =>
    have hmem := jsLookup_mem h
    have hd : ¬ e.data = [] := string_data_ne_nil (hne _ hmem)
    show (if e.data = [] then ['❓'] else e.data) = e.data
    rw [if_neg hd]

/-- C4: for every plain-text input, encoding lower-cases the input first
(JS `toLowerCase`, modelled per code point), then emits for each code
point the forward-mapping entry of that character — or the placeholder
`'❓'` when the character is not an alphabet key — and joins the emitted
tokens with a single space; the transform is a total function (the
hypothesis that mapped emoji are nonempty reflects the missing constants
file: an empty pool string would be falsy in JS and also yield `'❓'`). -/
theorem c4_encode_characterisation (m : List (Char × String)) (t : String)
    (hne : ∀ p ∈ m, p.2 ≠ "") :
    handleEncode m t =
      String.mk (joinSep ((t.data.map Char.toLower).map (encodeClaimTok m))) := by
  rw [handleEncode]
  by_cases ht : t = ""
  · rw [if_pos ht, ht]
    rfl
  · rw [if_neg ht, encodeL]
    have : (t.data.map Char.toLower).map (encodeChar m) =
        (t.data.map Char.toLower).map (encodeClaimTok m) :=
      List.map_congr_left (fun c _ => encodeChar_eq_claim m c hne)
    rw [this]

/-- Witness for C4: the mapping `[('a', "🍎")]` encodes `"A!"` as
`"🍎 ❓"` (lower-casing `'A'`, placeholder for `'!'`). -/
theorem c4_encode_characterisation_witness :
    handleEncode [('a', "🍎")] "A!" =
      String.mk (joinSep ((("A!" : String).data.map Char.toLower).map
        (encodeClaimTok [('a', "🍎")]))) :=
  c4_encode_characterisation [('a', "🍎")] "A!" (by decide)

/-! ## The decoder, the placeholder, and the prototype chain (C3) -/

theorem decodeTok_own {rev : List (String × Char)} {tok : List Char} {c : Char}
    (h : jsLookup rev (String.mk tok) = some c) : decodeTok rev tok = [c] := by
  rw [decodeTok, jsReadProp, h]

theorem decodeTok_undef {rev : List (String × Char)} {tok : List Char}
    (h : jsLookup rev (String.mk tok) = none)
    (hp : protoKeys.contains (String.mk tok) = false) : decodeTok rev tok = ['?'] := by
  rw [decodeTok, jsReadProp, h, hp]
  rfl

theorem decodeTok_proto {rev : List (String × Char)} {tok : List Char}
    (h : jsLookup rev (String.mk tok) = none)
    (hp : protoKeys.contains (String.mk tok) = true) :
    decodeTok rev tok = jsProtoRender (String.mk tok) := by
  rw [decodeTok, jsReadProp, h, hp]
  rfl

theorem jsProtoRender_ne (name : String) : jsProtoRender name ≠ ['?'] := by
  rw [jsProtoRender]
  split
  · decide
  · split
    · decide
    · intro h
      have hlen : ("function " ++ name ++ "() \x7b [native code] \x7d").length = 1 := by
        have h2 := congrArg List.length h
        simp only [List.length_cons, List.length_nil] at h2
        exact h2
      rw [String.length_append, String.length_append] at hlen
      have h1 : ("function " : String).length = 9 := by decide
      have h2 : 0 < ("() \x7b [native code] \x7d" : String).length := by decide
      omega

/-- C3 (amended per the counterexample): decoding splits its input into
whitespace-separated tokens (the empty input short-circuits to the empty
output), concatenates the per-token results in order, and is a total
function — every input produces an output string.  A token that is not a
key of the inverse mapping decodes to the placeholder `'?'` — unless the
token names an inherited `Object.prototype` property, in which case the
property read yields that truthy inherited value, the `||` fallback does
not fire, and the join emits its stringification instead of `'?'`. -/
theorem c3_decode_amended (rev : List (String × Char)) (s : String) :
    (∀ tok ∈ jsTokens s, jsLookup rev (String.mk tok) = none →
      (protoKeys.contains (String.mk tok) = false → decodeTok rev tok = ['?']) ∧
      (protoKeys.contains (String.mk tok) = true →
        decodeTok rev tok = jsProtoRender (String.mk tok) ∧
        jsProtoRender (String.mk tok) ≠ ['?'])) ∧
    handleDecode rev s = String.mk (((jsTokens s).map (decodeTok rev)).flatten) := by
  constructor
  · intro tok _ hnone
    exact ⟨fun hp => decodeTok_undef hnone hp,
           fun hp => ⟨decodeTok_proto hnone hp, jsProtoRender_ne _⟩⟩
  · rw [handleDecode, jsTokens]
    by_cases hs : s = ""
    · rw [if_pos hs, if_pos hs]
      rfl
    · rw [if_neg hs, if_neg hs, decodeL]

/-- Counterexample to C3 as stated: the token `constructor` is not a key
of the empty inverse mapping, yet decoding it does not produce `'?'` —
the JS property read finds the inherited truthy
`Object.prototype.constructor`, which `|| '?'` leaves in place. -/
theorem c3_decode_counterexample :
    jsLookup ([] : List (String × Char)) "constructor" = none ∧
    handleDecode ([] : List (String × Char)) "constructor" ≠ "?" := by
  constructor
  · rfl
  · have h : handleDecode ([] : List (String × Char)) "constructor" =
        String.mk (jsProtoRender "constructor") := by
      simp [handleDecode, decodeL, jsSplitWs, jsTrimL, splitWsAux, jsWhite, jsWhiteChars,
        decodeTok, jsReadProp, jsLookup, protoKeys]
    rw [h]
    decide

/-- Witness for C3 (amended): with an empty inverse mapping, the ordinary
unmapped token `"🍎"` decodes to the placeholder `'?'`. -/
theorem c3_decode_amended_witness :
    decodeTok ([] : List (String × Char)) ['🍎'] = ['?'] := by
  have hmem : ['🍎'] ∈ jsTokens "🍎" := by
    have h : jsTokens "🍎" = [['🍎']] := by
      simp [jsTokens, jsSplitWs, jsTrimL, splitWsAux, jsWhite, jsWhiteChars]
    rw [h]
    exact List.mem_singleton.mpr rfl
  exact ((c3_decode_amended [] "🍎").1 ['🍎'] hmem rfl).1 (by decide)

/-! ## Space-join and whitespace-split invert each other (towards C1) -/

theorem splitWsAux_token (tok : List Char) :
    ∀ (l cur : List Char), (∀ c ∈ tok, jsWhite c = false) →
      splitWsAux (tok ++ l) cur = splitWsAux l (tok.reverse ++ cur) := by
  induction tok with
  | nil =>
    intro l cur _
    simp
  | cons c t ih =>
    intro l cur hws
    have hc : jsWhite c = false := hws c (List.mem_cons_self c t)
    rw [List.cons_append, splitWsAux, hc]
    simp only [Bool.false_eq_true, if_false]
    rw [ih l (c :: cur) (fun c' hc' => hws c' (List.mem_cons_of_mem c hc'))]
    simp

theorem joinSep_cons_append (tok : List Char) (rest : List (List Char)) :
    ∃ tail, joinSep (tok :: rest) = tok ++ tail := by
  cases rest with
  | nil => exact ⟨[], by simp [joinSep]⟩
  | cons y ys => exact ⟨' ' :: joinSep (y :: ys), rfl⟩

theorem joinSep_dropWhile (toks : List (List Char)) (hne : toks ≠ [])
    (hprop : ∀ tok ∈ toks, tok ≠ [] ∧ ∀ c ∈ tok, jsWhite c = false) :
    (joinSep toks).dropWhile jsWhite = joinSep toks := by
  obtain ⟨tok, rest, h1⟩ := List.exists_cons_of_ne_nil hne
  subst h1
  have htok := hprop tok (List.mem_cons_self tok rest)
  obtain ⟨tail, htail⟩ := joinSep_cons_append tok rest
  obtain ⟨c, t, h2⟩ := List.exists_cons_of_ne_nil htok.1
  rw [htail, h2, List.cons_append, List.dropWhile_cons]
  have hc : jsWhite c = false := htok.2 c (by rw [h2]; exact List.mem_cons_self c t)
  rw [hc]
  simp

theorem split_joinSep (toks : List (List Char)) (hne : toks ≠ [])
    (hprop : ∀ tok ∈ toks, tok ≠ [] ∧ ∀ c ∈ tok, jsWhite c = false) :
    jsSplitWs (joinSep toks) = toks := by
  induction toks with
  | nil => exact absurd rfl hne
  | cons tok rest ih =>
    have htok := hprop tok (List.mem_cons_self tok rest)
    cases rest with
    | nil =>
      show splitWsAux (joinSep [tok]) [] = [tok]
      have hj : joinSep [tok] = tok ++ [] := by simp [joinSep]
      rw [hj, splitWsAux_token tok [] [] htok.2, splitWsAux]
      simp
    | cons tok₂ rest₂ =>
      show splitWsAux (joinSep (tok :: tok₂ :: rest₂)) [] = tok :: tok₂ :: rest₂
      rw [joinSep, splitWsAux_token tok _ [] htok.2, splitWsAux]
      have hsp : jsWhite ' ' = true := by decide
      rw [hsp]
      simp only [if_true]
      have hrestprop : ∀ tok' ∈ tok₂ :: rest₂, tok' ≠ [] ∧ ∀ c ∈ tok', jsWhite c = false :=
        fun tok' htok' => hprop tok' (List.mem_cons_of_mem tok htok')
      rw [joinSep_dropWhile (tok₂ :: rest₂) (fun h => List.noConfusion h) hrestprop]
      have ihr := ih (fun h => List.noConfusion h) hrestprop
      rw [jsSplitWs] at ihr
      rw [ihr]
      simp

theorem joinSep_reverse_head (toks : List (List Char)) (hne : toks ≠ [])
    (hprop : ∀ tok ∈ toks, tok ≠ [] ∧ ∀ c ∈ tok, jsWhite c = false) :
    ∃ c t', (joinSep toks).reverse = c :: t' ∧ jsWhite c = false := by
  induction toks with
  | nil => exact absurd rfl hne
  | cons tok rest ih =>
    have htok := hprop tok (List.mem_cons_self tok rest)
    cases rest with
    | nil =>
      have hrne : tok.reverse ≠ [] := fun h => htok.1 (List.reverse_eq_nil_iff.mp h)
      obtain ⟨c, t, h2⟩ := List.exists_cons_of_ne_nil hrne
      refine ⟨c, t, ?_, ?_⟩
      · have hj : joinSep [tok] = tok := by simp [joinSep]
        rw [hj]
        exact h2
      · have hcm : c ∈ tok.reverse := by rw [h2]; exact List.mem_cons_self c t
        exact htok.2 c (List.mem_reverse.mp hcm)
    | cons tok₂ rest₂ =>
      obtain ⟨c, t', hrev, hc⟩ := ih (fun h => List.noConfusion h)
        (fun tok' htok' => hprop tok' (List.mem_cons_of_mem tok htok'))
      refine ⟨c, t' ++ ' ' :: tok.reverse, ?_, hc⟩
      rw [joinSep, List.reverse_append, List.reverse_cons, hrev]
      simp

theorem trim_joinSep (toks : List (List Char)) (hne : toks ≠ [])
    (hprop : ∀ tok ∈ toks, tok ≠ [] ∧ ∀ c ∈ tok, jsWhite c = false) :
    jsTrimL (joinSep toks) = joinSep toks := by
  rw [jsTrimL, joinSep_dropWhile toks hne hprop]
  obtain ⟨c, t', hrev, hc⟩ := joinSep_reverse_head toks hne hprop
  rw [hrev, List.dropWhile_cons, hc]
  simp only [Bool.false_eq_true, if_false]
  rw [← hrev, List.reverse_reverse]

/-! ## Round-trip (C1) -/

theorem flatten_singletons (l : List Char) : (l.map (fun c => [c])).flatten = l := by
  induction l with
  | nil => rfl
  | cons c t ih => simp [ih]

theorem decodeTok_encodeChar (m : List (Char × String)) (c : Char)
    (hkey : ∃ v, jsLookup m c = some v)
    (hinj : ∀ c₁ c₂ v, jsLookup m c₁ = some v → jsLookup m c₂ = some v → c₁ = c₂)
    (hkeysnd : (keysOf m).Nodup)
    (hval : ∀ p ∈ m, p.2 ≠ "") :
    decodeTok (reverseMap m) (encodeChar m c) = [c] := by
  obtain ⟨v, hv⟩ := hkey
  have hvne : v ≠ "" := hval _ (jsLookup_mem hv)
  have henc : encodeChar m c = v.data := by
    rw [encodeChar, hv]
    show (if v.data = [] then ['❓'] else v.data) = v.data
    rw [if_neg (string_data_ne_nil hvne)]
  rw [henc]
  have hmk : String.mk v.data = v := rfl
  have hfm : (c, v) ∈ forInEntries m :=
    (mem_forInEntries hkeysnd _).mpr (jsLookup_mem hv)
  obtain ⟨k, hk⟩ := lookupLast_exists hfm
  have hrev : jsLookup (reverseMap m) (String.mk v.data) = some k := by
    rw [hmk, reverseMap_lookup, hk]
  have hkv := mem_jsLookup_of_nodup hkeysnd
    ((mem_forInEntries hkeysnd _).mp (lookupLast_mem hk))
  rw [decodeTok_own hrev, hinj k c v hkv hv]

theorem decode_encode_list (m : List (Char × String)) (cs : List Char)
    (hkeys : ∀ c ∈ cs, ∃ v, jsLookup m c = some v)
    (hinj : ∀ c₁ c₂ v, jsLookup m c₁ = some v → jsLookup m c₂ = some v → c₁ = c₂)
    (hkeysnd : (keysOf m).Nodup)
    (hval : ∀ p ∈ m, p.2 ≠ "" ∧ ∀ ch ∈ p.2.data, jsWhite ch = false)
    (hne : cs ≠ []) :
    decodeL (reverseMap m) (joinSep (cs.map (encodeChar m))) = cs := by
  have htokprop : ∀ tok ∈ cs.map (encodeChar m), tok ≠ [] ∧ ∀ c ∈ tok, jsWhite c = false := by
    intro tok htok
    obtain ⟨c, hc, hce⟩ := List.mem_map.mp htok
    obtain ⟨v, hv⟩ := hkeys c hc
    have hvp := hval _ (jsLookup_mem hv)
    have henc : encodeChar m c = v.data := by
      rw [encodeChar, hv]
      show (if v.data = [] then ['❓'] else v.data) = v.data
      rw [if_neg (string_data_ne_nil hvp.1)]
    rw [← hce, henc]
    exact ⟨string_data_ne_nil hvp.1, hvp.2⟩
  have htoksne : cs.map (encodeChar m) ≠ [] := by
    intro h
    exact hne (List.map_eq_nil_iff.mp h)
  rw [decodeL, trim_joinSep _ htoksne htokprop, split_joinSep _ htoksne htokprop]
  rw [List.map_map]
  have hpt : cs.map (decodeTok (reverseMap m) ∘ encodeChar m) = cs.map (fun c => [c]) :=
    List.map_congr_left (fun c hc =>
      decodeTok_encodeChar m c (hkeys c hc) hinj hkeysnd (fun p hp => (hval p hp).1))
  rw [hpt, flatten_singletons]

/-- C1: for every plain text `t` all of whose characters lower-case into
the alphabet, decoding the encoding of `t` yields the lower-cased `t`,
under the claim's preconditions: no two alphabet characters are mapped to
the same pool entry (injectivity of the forward lookup), and the
encoder's space-join convention matches the decoder's whitespace-split
tokenization — which for this pair of functions means every mapped emoji
string is nonempty and free of JS whitespace. -/
theorem c1_roundtrip (pool : List String) (chars : List Char) (t : String)
    (halpha : ∀ c ∈ t.data, c.toLower ∈ chars)
    (hinj : ∀ c₁ c₂ v, jsLookup (buildMapping pool chars) c₁ = some v →
        jsLookup (buildMapping pool chars) c₂ = some v → c₁ = c₂)
    (hconv : ∀ p ∈ buildMapping pool chars,
        p.2 ≠ "" ∧ ∀ ch ∈ p.2.data, jsWhite ch = false) :
    handleDecode (reverseMap (buildMapping pool chars))
        (handleEncode (buildMapping pool chars) t) =
      String.mk (t.data.map Char.toLower) := by
  by_cases ht : t = ""
  · subst ht
    rfl
  · rw [handleEncode, if_neg ht, encodeL]
    have hcsne : t.data.map Char.toLower ≠ [] := by
      intro h
      exact string_data_ne_nil ht (List.map_eq_nil_iff.mp h)
    have hkeys : ∀ c ∈ t.data.map Char.toLower,
        ∃ v, jsLookup (buildMapping pool chars) c = some v := by
      intro c hc
      obtain ⟨c₀, hc₀, hlow⟩ := List.mem_map.mp hc
      have hmem : c ∈ chars := hlow ▸ halpha c₀ hc₀
      have hkey : c ∈ keysOf (buildMapping pool chars) := by
        rw [buildMapping]
        exact buildLoop_key_mem _ chars 0 [] c (Or.inl hmem)
      cases hv : jsLookup (buildMapping pool chars) c with
      | none => exact absurd ((jsLookup_eq_none_iff _ _).mp hv) (by simpa using hkey)
      | some v => exact ⟨v, rfl⟩
    have htokprop : ∀ tok ∈ (t.data.map Char.toLower).map
        (encodeChar (buildMapping pool chars)),
        tok ≠ [] ∧ ∀ c ∈ tok, jsWhite c = false := by
      intro tok htok
      obtain ⟨c, hc, hce⟩ := List.mem_map.mp htok
      obtain ⟨v, hv⟩ := hkeys c hc
      have hvp := hconv _ (jsLookup_mem hv)
      have henc : encodeChar (buildMapping pool chars) c = v.data := by
        rw [encodeChar, hv]
        show (if v.data = [] then ['❓'] else v.data) = v.data
        rw [if_neg (string_data_ne_nil hvp.1)]
      rw [← hce, henc]
      exact ⟨string_data_ne_nil hvp.1, hvp.2⟩
    have hencne : String.mk (joinSep ((t.data.map Char.toLower).map
        (encodeChar (buildMapping pool chars)))) ≠ "" := by
      intro h
      have hjoin : joinSep ((t.data.map Char.toLower).map
          (encodeChar (buildMapping pool chars))) = [] := by
        have h' : String.mk (joinSep ((t.data.map Char.toLower).map
            (encodeChar (buildMapping pool chars)))) = String.mk [] := h
        injection h' 
      have htoksne : (t.data.map Char.toLower).map
          (encodeChar (buildMapping pool chars)) ≠ [] := by
        intro hh
        exact hcsne (List.map_eq_nil_iff.mp hh)
      obtain ⟨tok, rest, h1⟩ := List.exists_cons_of_ne_nil htoksne
      have htok := htokprop tok (by rw [h1]; exact List.mem_cons_self tok rest)
      obtain ⟨tail, htail⟩ := joinSep_cons_append tok rest
      obtain ⟨c₀, t₀, h2⟩ := List.exists_cons_of_ne_nil htok.1
      rw [h1, htail, h2] at hjoin
      exact List.noConfusion hjoin
    rw [handleDecode, if_neg hencne]
    exact congrArg String.mk
      (decode_encode_list (buildMapping pool chars) (t.data.map Char.toLower)
        hkeys hinj (buildMapping_keys_nodup pool chars) hconv hcsne)

/-- Witness for C1: pool `["🍎", "🍌"]`, alphabet `['a', 'b']`, input
`"AB"`; decoding the encoding returns `"ab"`. -/
theorem c1_roundtrip_witness :
    handleDecode (reverseMap (buildMapping ["🍎", "🍌"] ['a', 'b']))
        (handleEncode (buildMapping ["🍎", "🍌"] ['a', 'b']) "AB") =
      String.mk (("AB" : String).data.map Char.toLower) :=
  c1_roundtrip ["🍎", "🍌"] ['a', 'b'] "AB" (by decide)
    (buildMapping_inj ["🍎", "🍌"] ['a', 'b'] (by decide) (by decide) (by decide))
    (by decide)
